import Mathlib

/-!
Verification development for the interactive-music-map repository.

The embedding below translates the computational core of the app into Lean:

* the note classifier (melody/harmony split), the quantizer and the map
  position derivation from App.tsx (the unnamed main component file);
* the viewport zoom/pan handlers and the drag interaction state machine
  from components/MusicMap.tsx.

JavaScript numbers are modelled as rationals, so arithmetic is exact.
Math.round in JavaScript rounds half up, which is the floor of x + 1/2.
-/

/-- MidiNote from types.ts: pitch, startTime (seconds), duration (seconds)
and an optional velocity. -/
structure MidiNote where
  pitch : ℚ
  startTime : ℚ
  duration : ℚ
  velocity : Option ℚ
deriving DecidableEq, Repr, Inhabited

/-- Quantization type from types.ts: the two grid selectors, the string
"16" (sixteenth grid) and the string "8T" (eighth triplet grid). -/
inductive Quantization where
  | grid16
  | grid8T
deriving DecidableEq, Repr

/-- Clamp from MusicMap.tsx line 29: Math.max(min, Math.min(val, max)). -/
def clamp (val lo hi : ℚ) : ℚ := max lo (min val hi)

/-- JavaScript Math.round: rounds half toward positive infinity. -/
def jsRound (q : ℚ) : ℤ := ⌊q + 1 / 2⌋

/-- Quantizer from App.tsx lines 196 to 204.  secondsPerGridUnit is
secondsPerBeat / 3 for the 8T grid and secondsPerBeat / 4 otherwise. -/
def quantizeNotes (notes : List MidiNote) (bpm : ℚ) (quantizeGrid : Quantization) :
    List MidiNote :=
  let secondsPerBeat := 60 / bpm
  let secondsPerGridUnit :=
    match quantizeGrid with
    | .grid8T => secondsPerBeat / 3
    | .grid16 => secondsPerBeat / 4
  notes.map fun note =>
    { note with
      startTime := (jsRound (note.startTime / secondsPerGridUnit) : ℚ) * secondsPerGridUnit,
      duration := max secondsPerGridUnit
        ((jsRound (note.duration / secondsPerGridUnit) : ℚ) * secondsPerGridUnit) }

/-- Analysis record from types.ts, restricted to the three numeric fields
the map position derivation reads (the remaining fields are free-form
strings and counts that never reach the position formula). -/
structure Analysis where
  melodicComplexity : ℚ
  harmonicRichness : ℚ
  melodicRichness : ℚ
deriving DecidableEq, Repr

/-- MapPosition from types.ts. -/
structure MapPosition where
  x : ℚ
  y : ℚ
deriving DecidableEq, Repr

/-- Map position derivation from App.tsx lines 219 to 222 (and the identical
lines 324 to 327 in generateVariation): x is melodicComplexity / 3 plus
melodicRichness * 2 / 3, y is harmonicRichness, with no clamping. -/
def mapPositionOf (analysis : Analysis) : MapPosition :=
  { x := analysis.melodicComplexity / 3 + analysis.melodicRichness * 2 / 3,
    y := analysis.harmonicRichness }

/-! ### Note classifier (App.tsx lines 61 to 93) -/

/-- Threshold of 20 milliseconds for simultaneous notes (App.tsx line 68). -/
def timeThreshold : ℚ := 1 / 50

/-- Comparator used to sort notes by startTime (App.tsx line 70).  The
JavaScript sort is stable, as is List.mergeSort with this relation. -/
def startLE (a b : MidiNote) : Bool := a.startTime ≤ b.startTime

/-- Inner while loop of classifyNotes (App.tsx lines 77 to 81): collect the
run of notes whose startTime differs from the startTime of the FIRST note
of the group by less than the threshold, and return the remainder. -/
def takeGroup (currentNote : MidiNote) : List MidiNote → List MidiNote × List MidiNote
  | [] => ([], [])
  | n :: ns =>
    if n.startTime - currentNote.startTime < timeThreshold then
      let p := takeGroup currentNote ns
      (n :: p.1, p.2)
    else ([], n :: ns)

/-- Outer while loop of classifyNotes (App.tsx lines 72 to 91) expressed
with a fuel argument so that it is structurally recursive; the fuel is the
length of the list, which is always sufficient. -/
def simGroupsAux : Nat → List MidiNote → List (List MidiNote)
  | 0, _ => []
  | _, [] => []
  | fuel + 1, n :: ns =>
    let p := takeGroup n ns
    (n :: p.1) :: simGroupsAux fuel p.2

/-- Simultaneity groups of a (sorted) note list. -/
def simGroups (l : List MidiNote) : List (List MidiNote) := simGroupsAux l.length l

/-- Reducer from App.tsx line 86: keep the note of strictly higher pitch,
otherwise keep the current highest. -/
def pickHigher (highest note : MidiNote) : MidiNote :=
  if note.pitch > highest.pitch then note else highest

/-- Reduction from App.tsx line 86: fold with pickHigher over the whole
group, with the first note of the group as the initial value, so the
first note of maximal pitch wins. -/
def topFold (g : List MidiNote) : MidiNote :=
  g.foldl pickHigher (g.headD default)

/-- Classifier from App.tsx lines 61 to 93.  Sort by startTime, split into
simultaneity groups, send the top note of each group to the melody and the
rest of the group to the harmony.  In the source a singleton group pushes
its unique note to the melody and nothing to the harmony, which coincides
with the uniform description below; the source removes the top note from
the group by object identity, which on value-distinct notes is removal of
the first occurrence (the chosen note is the first of its pitch among the
maximal ones, so List.erase removes exactly it). -/
def classifyNotes (notes : List MidiNote) : List MidiNote × List MidiNote :=
  let sortedNotes := notes.mergeSort startLE
  let gs := simGroups sortedNotes
  (gs.map topFold, gs.flatMap fun g => g.erase (topFold g))

/-! ### Viewport controller (components/MusicMap.tsx) -/

/-- Viewport domain from MusicMap.tsx line 37: an x interval and a y
interval over the logical plane from 0 to 100. -/
structure Viewport where
  xMin : ℚ
  xMax : ℚ
  yMin : ℚ
  yMax : ℚ
deriving DecidableEq, Repr

/-- Zoom applied to one axis, from handleZoom in MusicMap.tsx lines 120 to
134.  In the source the x and y computations are interleaved but fully
independent, so the handler is the axis operation applied to each axis. -/
def zoomAxis (lo hi factor : ℚ) : ℚ × ℚ :=
  let range := (hi - lo) * factor
  let center := (lo + hi) / 2
  let n0 := center - range / 2
  let n1 := center + range / 2
  let p := if n0 < 0 then ((0 : ℚ), n1 - n0) else (n0, n1)
  let q := if p.2 > 100 then (p.1 - (p.2 - 100), (100 : ℚ)) else p
  (clamp q.1 0 100, clamp q.2 0 100)

/-- handleZoom from MusicMap.tsx lines 120 to 134. -/
def handleZoom (prev : Viewport) (factor : ℚ) : Viewport :=
  let px := zoomAxis prev.xMin prev.xMax factor
  let py := zoomAxis prev.yMin prev.yMax factor
  { xMin := px.1, xMax := px.2, yMin := py.1, yMax := py.2 }

/-- handlePanMove from MusicMap.tsx lines 92 to 108: dx and dy are the
pixel deltas from the pan start, w and h the pixel extent of the chart
container, and the start viewport is the domain captured at pan start. -/
def handlePanMove (start : Viewport) (dx dy w h : ℚ) : Viewport :=
  let xRange := start.xMax - start.xMin
  let yRange := start.yMax - start.yMin
  let xPerPixel := xRange / w
  let yPerPixel := yRange / h
  let newXMin := clamp (start.xMin - dx * xPerPixel) 0 (100 - xRange)
  let newYMin := clamp (start.yMin + dy * yPerPixel) 0 (100 - yRange)
  { xMin := newXMin, xMax := newXMin + xRange,
    yMin := newYMin, yMax := newYMin + yRange }

/-! ### Drag interaction state machine (components/MusicMap.tsx) -/

/-- Raw inputs of one mousemove event during a drag: the client
coordinates of the pointer, the bounding rectangle of the chart container
and the viewport domain current at that move. -/
structure MoveGeom where
  clientX : ℚ
  clientY : ℚ
  rectLeft : ℚ
  rectTop : ℚ
  rectWidth : ℚ
  rectHeight : ℚ
  domain : Viewport
deriving DecidableEq, Repr

/-- Position computed by handleMouseMove in MusicMap.tsx lines 60 to 74:
inverse linear transform from pixels to data coordinates with chart
margins of 20 on every side, y inverted, both axes clamped to the square
from 0 to 100 before the value is stored. -/
def moveValue (g : MoveGeom) : MapPosition :=
  let plotAreaX := g.rectLeft + 20
  let plotAreaY := g.rectTop + 20
  let plotAreaWidth := g.rectWidth - 20 - 20
  let plotAreaHeight := g.rectHeight - 20 - 20
  let mouseX := g.clientX - plotAreaX
  let mouseY := g.clientY - plotAreaY
  let xValue := mouseX / plotAreaWidth * (g.domain.xMax - g.domain.xMin) + g.domain.xMin
  let yValue := (plotAreaHeight - mouseY) / plotAreaHeight * (g.domain.yMax - g.domain.yMin)
    + g.domain.yMin
  { x := clamp xValue 0 100, y := clamp yValue 0 100 }

/-- Drag state of MusicMap.tsx: isDragging (line 32), the transient
position (line 33) and the did-drag flag (line 35). -/
structure DragState where
  isDragging : Bool
  transient : Option MapPosition
  didDrag : Bool
deriving DecidableEq, Repr

/-- Initial state: not dragging, no transient position, flag clear. -/
def initialDragState : DragState :=
  { isDragging := false, transient := none, didDrag := false }

/-- Pointer events relevant to the drag machine.  A down event carries the
stored map position of the dragged point and whether dragging is enabled
(the guard of handleMouseDownOnUserMelody, lines 50 to 56); a move event
carries the raw geometry of the mousemove. -/
inductive DragEvent where
  | down (pos : MapPosition) (draggable : Bool)
  | move (g : MoveGeom)
  | up
deriving DecidableEq, Repr

/-- One step of the drag machine, returning the next state and the
position emitted to onUserMelodyMove, if any.  Down: handleMouseDownOnUserMelody
(lines 50 to 56).  Move: handleMouseMove (lines 60 to 75), a no-op unless
dragging, otherwise it sets the did-drag flag and stores the clamped
position.  Up: handleMouseUp (lines 76 to 79), which emits the transient
position only when dragging, the position exists and the flag is set. -/
def dragStep (s : DragState) (e : DragEvent) : DragState × Option MapPosition :=
  match e with
  | .down pos draggable =>
    if draggable then
      ({ isDragging := true, transient := some pos, didDrag := false }, none)
    else (s, none)
  | .move g =>
    if s.isDragging then
      ({ isDragging := s.isDragging, transient := some (moveValue g), didDrag := true }, none)
    else (s, none)
  | .up =>
    let emit :=
      match s.transient with
      | some p => if s.isDragging && s.didDrag then some p else none
      | none => none
    ({ s with isDragging := false }, emit)

/-- Run of the drag machine over a list of events, collecting every
position emitted to onUserMelodyMove in order. -/
def dragRun (s : DragState) : List DragEvent → DragState × List MapPosition
  | [] => (s, [])
  | e :: es =>
    let p := dragStep s e
    let r := dragRun p.1 es
    (r.1, (p.2.toList) ++ r.2)

example : quantizeNotes [⟨60, 9/100, 3/100, none⟩] 120 .grid16
    = [⟨60, 1/8, 1/8, none⟩] := by
  norm_num [quantizeNotes, jsRound, Int.floor_eq_iff]

example : mapPositionOf ⟨60, 75, 30⟩ = ⟨40, 75⟩ := by
  norm_num [mapPositionOf, MapPosition.mk.injEq]

example : classifyNotes
      [⟨60, 0, 1, none⟩, ⟨64, 1/100, 1, none⟩, ⟨67, 3/200, 1, none⟩]
    = ([⟨67, 3/200, 1, none⟩], [⟨60, 0, 1, none⟩, ⟨64, 1/100, 1, none⟩]) := by
  have hs : ([⟨60, 0, 1, none⟩, ⟨64, 1/100, 1, none⟩, ⟨67, 3/200, 1, none⟩] :
      List MidiNote).mergeSort startLE
      = [⟨60, 0, 1, none⟩, ⟨64, 1/100, 1, none⟩, ⟨67, 3/200, 1, none⟩] := by
    apply List.mergeSort_of_sorted
    norm_num [startLE, List.pairwise_cons]
  norm_num [classifyNotes, hs, simGroups, simGroupsAux, takeGroup, timeThreshold, topFold,
    pickHigher, List.erase_cons, MidiNote.mk.injEq]

example : simGroups [⟨60, 0, 1, none⟩, ⟨64, 3/200, 1, none⟩, ⟨67, 3/100, 1, none⟩]
    = [[⟨60, 0, 1, none⟩, ⟨64, 3/200, 1, none⟩], [⟨67, 3/100, 1, none⟩]] := by
  norm_num [simGroups, simGroupsAux, takeGroup, timeThreshold]

example : handleZoom ⟨0, 100, 0, 100⟩ (5/4) = ⟨0, 100, 0, 100⟩ := by
  norm_num [handleZoom, zoomAxis, clamp, Viewport.mk.injEq]

example : handleZoom ⟨40, 60, 40, 60⟩ (1/2) = ⟨45, 55, 45, 55⟩ := by
  norm_num [handleZoom, zoomAxis, clamp, Viewport.mk.injEq]

example : handlePanMove ⟨0, 20, 0, 100⟩ 5 0 100 100 = ⟨0, 20, 0, 100⟩ := by
  norm_num [handlePanMove, clamp, Viewport.mk.injEq]

/-! ### Structure lemmas for the classifier -/

theorem takeGroup_eq (c : MidiNote) (l : List MidiNote) :
    takeGroup c l
      = (l.takeWhile fun n => decide (n.startTime - c.startTime < timeThreshold),
         l.dropWhile fun n => decide (n.startTime - c.startTime < timeThreshold)) := by
  induction l with
  | nil => rfl
  | cons n ns ih =>
    by_cases h : n.startTime - c.startTime < timeThreshold <;>
      simp [takeGroup, h, List.takeWhile_cons, List.dropWhile_cons, ih]

theorem takeGroup_append (c : MidiNote) (l : List MidiNote) :
    (takeGroup c l).1 ++ (takeGroup c l).2 = l := by
  rw [takeGroup_eq]
  simp [List.takeWhile_append_dropWhile]

theorem takeGroup_snd_length (c : MidiNote) (l : List MidiNote) :
    (takeGroup c l).2.length ≤ l.length := by
  have h := congrArg List.length (takeGroup_append c l)
  simp only [List.length_append] at h
  omega

theorem simGroupsAux_nil (fuel : Nat) : simGroupsAux fuel [] = [] := by
  cases fuel <;> rfl

theorem simGroupsAux_congr :
    ∀ (f₁ f₂ : Nat) (l : List MidiNote), l.length ≤ f₁ → l.length ≤ f₂ →
      simGroupsAux f₁ l = simGroupsAux f₂ l := by
  intro f₁
  induction f₁ with
  | zero =>
    intro f₂ l h₁ _
    have : l = [] := List.length_eq_zero.mp (Nat.le_zero.mp h₁)
    subst this
    simp [simGroupsAux_nil]
  | succ k ih =>
    intro f₂ l h₁ h₂
    cases l with
    | nil => simp [simGroupsAux_nil]
    | cons n ns =>
      cases f₂ with
      | zero => simp at h₂
      | succ m =>
        simp only [simGroupsAux]
        have hr := takeGroup_snd_length n ns
        have hns₁ : ns.length ≤ k := by simpa using h₁
        have hns₂ : ns.length ≤ m := by simpa using h₂
        rw [ih m (takeGroup n ns).2 (le_trans hr hns₁) (le_trans hr hns₂)]

theorem simGroups_nil : simGroups [] = [] := rfl

theorem simGroups_cons (n : MidiNote) (ns : List MidiNote) :
    simGroups (n :: ns)
      = (n :: (takeGroup n ns).1) :: simGroups (takeGroup n ns).2 := by
  have hr := takeGroup_snd_length n ns
  simp only [simGroups, List.length_cons, simGroupsAux]
  rw [simGroupsAux_congr ns.length (takeGroup n ns).2.length (takeGroup n ns).2 hr le_rfl]

theorem simGroups_flatten : ∀ (l : List MidiNote), (simGroups l).flatten = l := by
  have key : ∀ (fuel : Nat) (l : List MidiNote), l.length ≤ fuel →
      (simGroups l).flatten = l := by
    intro fuel
    induction fuel with
    | zero =>
      intro l h
      have : l = [] := List.length_eq_zero.mp (Nat.le_zero.mp h)
      subst this
      rfl
    | succ k ih =>
      intro l h
      cases l with
      | nil => rfl
      | cons n ns =>
        rw [simGroups_cons]
        have hr := takeGroup_snd_length n ns
        have hns : ns.length ≤ k := by simpa using h
        simp only [List.flatten_cons, ih (takeGroup n ns).2 (le_trans hr hns)]
        simp [takeGroup_append n ns]
  intro l
  exact key l.length l le_rfl

theorem simGroups_ne_nil : ∀ (l : List MidiNote), ∀ g ∈ simGroups l, g ≠ [] := by
  have key : ∀ (fuel : Nat) (l : List MidiNote), l.length ≤ fuel →
      ∀ g ∈ simGroups l, g ≠ [] := by
    intro fuel
    induction fuel with
    | zero =>
      intro l h
      have : l = [] := List.length_eq_zero.mp (Nat.le_zero.mp h)
      subst this
      simp [simGroups_nil]
    | succ k ih =>
      intro l h g hg
      cases l with
      | nil => simp [simGroups_nil] at hg
      | cons n ns =>
        rw [simGroups_cons] at hg
        rcases List.mem_cons.mp hg with h1 | h1
        · subst h1; simp
        · have hr := takeGroup_snd_length n ns
          have hns : ns.length ≤ k := by simpa using h
          exact ih (takeGroup n ns).2 (le_trans hr hns) g h1
  intro l
  exact key l.length l le_rfl

theorem simGroups_span : ∀ (l : List MidiNote), ∀ g ∈ simGroups l, ∀ n ∈ g,
    n.startTime - (g.headD default).startTime < timeThreshold := by
  have key : ∀ (fuel : Nat) (l : List MidiNote), l.length ≤ fuel →
      ∀ g ∈ simGroups l, ∀ n ∈ g,
        n.startTime - (g.headD default).startTime < timeThreshold := by
    intro fuel
    induction fuel with
    | zero =>
      intro l h
      have : l = [] := List.length_eq_zero.mp (Nat.le_zero.mp h)
      subst this
      simp [simGroups_nil]
    | succ k ih =>
      intro l h g hg n hn
      cases l with
      | nil => simp [simGroups_nil] at hg
      | cons m ns =>
        rw [simGroups_cons] at hg
        rcases List.mem_cons.mp hg with h1 | h1
        · subst h1
          rcases List.mem_cons.mp hn with h2 | h2
          · subst h2
            simp [timeThreshold]
          · have := List.mem_takeWhile_imp (by rw [takeGroup_eq] at h2; exact h2)
            simp only [decide_eq_true_eq] at this
            simpa using this
        · have hr := takeGroup_snd_length m ns
          have hns : ns.length ≤ k := by simpa using h
          exact ih (takeGroup m ns).2 (le_trans hr hns) g h1 n hn
  intro l
  exact key l.length l le_rfl

/-! ### Lemmas about the top-note reduction -/

theorem foldl_pickHigher_mem :
    ∀ (l : List MidiNote) (a : MidiNote), l.foldl pickHigher a ∈ a :: l := by
  intro l
  induction l with
  | nil => simp
  | cons n ns ih =>
    intro a
    simp only [List.foldl_cons]
    rcases List.mem_cons.mp (ih (pickHigher a n)) with h | h
    · rw [h]
      unfold pickHigher
      split
      · simp
      · simp
    · simp [h]

theorem foldl_pickHigher_init_le :
    ∀ (l : List MidiNote) (a : MidiNote), a.pitch ≤ (l.foldl pickHigher a).pitch := by
  intro l
  induction l with
  | nil => simp
  | cons n ns ih =>
    intro a
    simp only [List.foldl_cons]
    refine le_trans ?_ (ih (pickHigher a n))
    unfold pickHigher
    split
    · exact le_of_lt (by assumption)
    · exact le_rfl

theorem foldl_pickHigher_argmax :
    ∀ (l : List MidiNote) (a : MidiNote), ∃ l₁ l₂,
      a :: l = l₁ ++ (l.foldl pickHigher a) :: l₂
      ∧ (∀ x ∈ l₁, x.pitch < (l.foldl pickHigher a).pitch)
      ∧ (∀ x ∈ l₂, x.pitch ≤ (l.foldl pickHigher a).pitch) := by
  intro l
  induction l with
  | nil =>
    intro a
    exact ⟨[], [], by simp⟩
  | cons n ns ih =>
    intro a
    simp only [List.foldl_cons]
    by_cases h : n.pitch > a.pitch
    · have hp : pickHigher a n = n := by simp [pickHigher, h]
      rw [hp]
      obtain ⟨l₁, l₂, hdec, hlt, hle⟩ := ih n
      refine ⟨a :: l₁, l₂, by simp [hdec], ?_, hle⟩
      intro x hx
      rcases List.mem_cons.mp hx with h1 | h1
      · subst h1
        exact lt_of_lt_of_le h (foldl_pickHigher_init_le ns n)
      · exact hlt x h1
    · have hp : pickHigher a n = a := by simp [pickHigher, h]
      rw [hp]
      obtain ⟨l₁, l₂, hdec, hlt, hle⟩ := ih a
      cases l₁ with
      | nil =>
        simp only [List.nil_append] at hdec
        injection hdec with ha hl₂
        refine ⟨[], n :: ns, by simp [← ha], by simp, ?_⟩
        intro x hx
        rcases List.mem_cons.mp hx with rfl | h1
        · rw [← ha]
          exact le_of_not_lt h
        · exact hle x (hl₂ ▸ h1)
      | cons b l₁t =>
        simp only [List.cons_append] at hdec
        injection hdec with hb hns
        subst hb
        refine ⟨a :: n :: l₁t, l₂, ?_, ?_, hle⟩
        · conv_lhs => rw [hns]
          simp
        intro x hx
        rcases List.mem_cons.mp hx with rfl | h1
        · exact hlt x (by simp)
        · rcases List.mem_cons.mp h1 with rfl | h2
          · exact lt_of_le_of_lt (le_of_not_lt h) (hlt a (by simp))
          · exact hlt x (by simp [h2])

theorem topFold_eq_foldl (a : MidiNote) (l : List MidiNote) :
    topFold (a :: l) = l.foldl pickHigher a := by
  simp [topFold, pickHigher]

theorem topFold_mem (g : List MidiNote) (hg : g ≠ []) : topFold g ∈ g := by
  cases g with
  | nil => exact absurd rfl hg
  | cons a l =>
    rw [topFold_eq_foldl]
    exact foldl_pickHigher_mem l a

theorem topFold_argmax (g : List MidiNote) (hg : g ≠ []) :
    ∃ l₁ l₂, g = l₁ ++ (topFold g) :: l₂
      ∧ (∀ x ∈ l₁, x.pitch < (topFold g).pitch)
      ∧ (∀ x ∈ l₂, x.pitch ≤ (topFold g).pitch) := by
  cases g with
  | nil => exact absurd rfl hg
  | cons a l =>
    rw [topFold_eq_foldl]
    exact foldl_pickHigher_argmax l a

/-- Permutation core of the partition property: mapping each group to its
top note and flat-mapping each group to the rest of the group together
permute the concatenation of the groups. -/
theorem map_top_append_rest_perm :
    ∀ (gs : List (List MidiNote)), (∀ g ∈ gs, g ≠ []) →
      (gs.map topFold ++ gs.flatMap fun g => g.erase (topFold g)).Perm gs.flatten := by
  intro gs
  induction gs with
  | nil => simp
  | cons g gst ih =>
    intro hne
    have hg : g ≠ [] := hne g (by simp)
    have hgs : ∀ h ∈ gst, h ≠ [] := fun h hh => hne h (by simp [hh])
    simp only [List.map_cons, List.flatMap_cons, List.flatten_cons, List.cons_append]
    have s1 : (gst.map topFold
          ++ (g.erase (topFold g) ++ gst.flatMap fun h => h.erase (topFold h))).Perm
        (g.erase (topFold g) ++ (gst.map topFold ++ gst.flatMap fun h => h.erase (topFold h))) := by
      rw [← List.append_assoc, ← List.append_assoc]
      exact List.Perm.append_right _ List.perm_append_comm
    have s2 : ((topFold g :: g.erase (topFold g))
          ++ (gst.map topFold ++ gst.flatMap fun h => h.erase (topFold h))).Perm
        (g ++ (gst.map topFold ++ gst.flatMap fun h => h.erase (topFold h))) :=
      List.Perm.append_right _ (List.perm_cons_erase (topFold_mem g hg)).symm
    exact ((s1.cons (topFold g)).trans s2).trans (List.Perm.append_left g (ih hgs))

/-- Partition property of the classifier: melody and harmony together are
a permutation of the input notes. -/
theorem classifyNotes_perm (notes : List MidiNote) :
    ((classifyNotes notes).1 ++ (classifyNotes notes).2).Perm notes := by
  unfold classifyNotes
  simp only
  refine (map_top_append_rest_perm _ (simGroups_ne_nil _)).trans ?_
  rw [simGroups_flatten]
  exact List.mergeSort_perm notes startLE

/-! ### Clamp and rounding helper lemmas -/

theorem clamp_ge (v lo hi : ℚ) : lo ≤ clamp v lo hi := le_max_left lo (min v hi)

theorem clamp_le (v lo hi : ℚ) (h : lo ≤ hi) : clamp v lo hi ≤ hi :=
  max_le h (min_le_right v hi)

theorem clamp_eq_self (v lo hi : ℚ) (h₁ : lo ≤ v) (h₂ : v ≤ hi) : clamp v lo hi = v := by
  rw [clamp, min_eq_left h₂, max_eq_right h₁]

theorem clamp_eq_lo (v lo hi : ℚ) (h₁ : v ≤ lo) (h₂ : lo ≤ hi) : clamp v lo hi = lo := by
  rw [clamp, min_eq_left (le_trans h₁ h₂), max_eq_left h₁]

theorem clamp_eq_hi (v lo hi : ℚ) (h₁ : hi ≤ v) (h₂ : lo ≤ hi) : clamp v lo hi = hi := by
  rw [clamp, min_eq_right h₁, max_eq_right h₂]

theorem jsRound_intCast (k : ℤ) : jsRound (k : ℚ) = k := by
  rw [jsRound, add_comm, Int.floor_add_int]
  norm_num

/-- C2: classifyNotes is a function of the input note list alone, hence
deterministic, and it partitions the input: melody and harmony lengths add
up to the input length, and every note occurs in melody and harmony
together exactly as often as in the input. -/
theorem claim_C2 (notes : List MidiNote) :
    (classifyNotes notes).1.length + (classifyNotes notes).2.length = notes.length
    ∧ ∀ n : MidiNote,
        (classifyNotes notes).1.count n + (classifyNotes notes).2.count n = notes.count n := by
  have hp := classifyNotes_perm notes
  constructor
  · have h := hp.length_eq
    simpa using h
  · intro n
    have h := hp.count_eq n
    simpa using h

/-- C1 counterexample: the map position derivation applies no clamp to x,
so an analysis with melodicComplexity 600 yields x = 200, while the
claimed clamped formula yields 100. -/
theorem claim_C1_counterexample :
    (mapPositionOf ⟨600, 0, 0⟩).x = 200
    ∧ clamp (600 / 3 + 0 * 2 / 3) 0 100 = 100
    ∧ (mapPositionOf ⟨600, 0, 0⟩).x ≠ clamp (600 / 3 + 0 * 2 / 3) 0 100 := by
  norm_num [mapPositionOf, clamp]

/-- C1 amended: for every analysis the derived map position has
x = melodicComplexity / 3 + melodicRichness * 2 / 3 with NO clamp applied
by this component (exactly as for y = harmonicRichness); whenever the two
melodic scores lie within 0 to 100 the x value already lies within 0 to
100 and therefore equals its clamp; melodicComplexity 60 and
melodicRichness 30 give x = 40, and harmonicRichness 75 gives y = 75. -/
theorem claim_C1 (a : Analysis)
    (hmc0 : 0 ≤ a.melodicComplexity) (hmc1 : a.melodicComplexity ≤ 100)
    (hmr0 : 0 ≤ a.melodicRichness) (hmr1 : a.melodicRichness ≤ 100) :
    (mapPositionOf a).x = a.melodicComplexity / 3 + a.melodicRichness * 2 / 3
    ∧ (mapPositionOf a).y = a.harmonicRichness
    ∧ clamp ((mapPositionOf a).x) 0 100 = (mapPositionOf a).x
    ∧ mapPositionOf ⟨60, 75, 30⟩ = ⟨40, 75⟩ := by
  refine ⟨rfl, rfl, ?_, by norm_num [mapPositionOf, MapPosition.mk.injEq]⟩
  apply clamp_eq_self
  · unfold mapPositionOf
    dsimp only
    linarith
  · unfold mapPositionOf
    dsimp only
    linarith

/-- C1 witness: the amended claim instantiated at the analysis with
melodicComplexity 60, harmonicRichness 75 and melodicRichness 30. -/
theorem claim_C1_witness :
    (0:ℚ) ≤ 60 ∧ (60:ℚ) ≤ 100 ∧ (0:ℚ) ≤ 30 ∧ (30:ℚ) ≤ 100
    ∧ ((mapPositionOf ⟨60, 75, 30⟩).x = 60 / 3 + 30 * 2 / 3
        ∧ (mapPositionOf ⟨60, 75, 30⟩).y = 75
        ∧ clamp ((mapPositionOf ⟨60, 75, 30⟩).x) 0 100 = (mapPositionOf ⟨60, 75, 30⟩).x
        ∧ mapPositionOf ⟨60, 75, 30⟩ = ⟨40, 75⟩) :=
  ⟨by norm_num, by norm_num, by norm_num, by norm_num,
    claim_C1 ⟨60, 75, 30⟩ (by norm_num) (by norm_num) (by norm_num) (by norm_num)⟩

/-- C5: quantizeNotes is an order-preserving element-wise map: the output
has the length of the input and the note at every index is the input note
at the same index with startTime rounded to the nearest grid unit,
duration rounded to the nearest grid unit but floored at one grid unit,
and pitch and velocity unchanged, where the grid unit is (60 / bpm)
divided by 4 subdivisions for the 16 grid and by 3 for the 8T grid; at
bpm 120 on the sixteenth grid the grid unit is 1/8 s and a note at start
9/100 s with duration 3/100 s quantizes to start 1/8 and duration 1/8. -/
theorem claim_C5 (notes : List MidiNote) (bpm : ℚ) (grid : Quantization) (hbpm : 0 < bpm) :
    (quantizeNotes notes bpm grid).length = notes.length
    ∧ (∀ i : Nat,
        (quantizeNotes notes bpm grid)[i]? = (notes[i]?).map fun n =>
          let subdivisions : ℚ := match grid with | .grid16 => 4 | .grid8T => 3
          let gridUnit := 60 / bpm / subdivisions
          { n with
            startTime := (jsRound (n.startTime / gridUnit) : ℚ) * gridUnit,
            duration := max gridUnit ((jsRound (n.duration / gridUnit) : ℚ) * gridUnit) })
    ∧ quantizeNotes [⟨60, 9/100, 3/100, none⟩] 120 .grid16 = [⟨60, 1/8, 1/8, none⟩] := by
  refine ⟨by simp [quantizeNotes], ?_, by norm_num [quantizeNotes, jsRound, Int.floor_eq_iff]⟩
  intro i
  cases grid <;> simp [quantizeNotes, List.getElem?_map]

/-- C5 witness: the element-wise description instantiated at the single
note of the grid example, with bpm 120 on the sixteenth grid. -/
theorem claim_C5_witness :
    (0:ℚ) < 120
    ∧ ((quantizeNotes [⟨60, 9/100, 3/100, none⟩] 120 .grid16).length = 1
        ∧ (∀ i : Nat,
            (quantizeNotes [⟨60, 9/100, 3/100, none⟩] 120 .grid16)[i]?
              = (([⟨60, 9/100, 3/100, none⟩] : List MidiNote)[i]?).map fun n =>
                let subdivisions : ℚ := match Quantization.grid16 with
                  | .grid16 => 4 | .grid8T => 3
                let gridUnit := 60 / 120 / subdivisions
                { n with
                  startTime := (jsRound (n.startTime / gridUnit) : ℚ) * gridUnit,
                  duration := max gridUnit ((jsRound (n.duration / gridUnit) : ℚ) * gridUnit) })
        ∧ quantizeNotes [⟨60, 9/100, 3/100, none⟩] 120 .grid16 = [⟨60, 1/8, 1/8, none⟩]) := by
  refine ⟨by norm_num, ?_⟩
  have h := claim_C5 [⟨60, 9/100, 3/100, none⟩] 120 .grid16 (by norm_num)
  simpa using h

/-- Start times already on the grid are fixed by another rounding pass. -/
theorem quantize_start_idem (g : ℚ) (hg : g ≠ 0) (k : ℤ) :
    (jsRound ((k : ℚ) * g / g) : ℚ) * g = (k : ℚ) * g := by
  rw [mul_div_cancel_right₀ _ hg, jsRound_intCast]

/-- Durations already on the grid and floored at one grid unit are fixed
by another rounding-and-flooring pass. -/
theorem quantize_dur_idem (g : ℚ) (hg : 0 < g) (m : ℤ) :
    max g ((jsRound (max g ((m : ℚ) * g) / g) : ℚ) * g) = max g ((m : ℚ) * g) := by
  rcases le_total ((m : ℚ) * g) g with h | h
  · rw [max_eq_left h, div_self (ne_of_gt hg)]
    have h1 : jsRound ((1 : ℤ) : ℚ) = 1 := jsRound_intCast 1
    norm_num at h1
    rw [h1]
    norm_num
  · rw [max_eq_right h, mul_div_cancel_right₀ _ (ne_of_gt hg), jsRound_intCast,
      max_eq_right h]

/-- C6: quantizeNotes is idempotent for every note list, positive tempo
and grid selector. -/
theorem claim_C6 (notes : List MidiNote) (bpm : ℚ) (grid : Quantization) (hbpm : 0 < bpm) :
    quantizeNotes (quantizeNotes notes bpm grid) bpm grid = quantizeNotes notes bpm grid := by
  cases grid with
  | grid16 =>
    unfold quantizeNotes
    simp only [List.map_map]
    apply List.map_congr_left
    intro n _
    have hu : (0 : ℚ) < 60 / bpm / 4 := by positivity
    simp only [Function.comp_apply]
    rw [quantize_start_idem _ (ne_of_gt hu), quantize_dur_idem _ hu]
  | grid8T =>
    unfold quantizeNotes
    simp only [List.map_map]
    apply List.map_congr_left
    intro n _
    have hu : (0 : ℚ) < 60 / bpm / 3 := by positivity
    simp only [Function.comp_apply]
    rw [quantize_start_idem _ (ne_of_gt hu), quantize_dur_idem _ hu]

/-- C6 witness: idempotence instantiated at the grid example note, with
bpm 120 on the sixteenth grid. -/
theorem claim_C6_witness :
    (0:ℚ) < 120
    ∧ quantizeNotes (quantizeNotes [⟨60, 9/100, 3/100, none⟩] 120 .grid16) 120 .grid16
        = quantizeNotes [⟨60, 9/100, 3/100, none⟩] 120 .grid16 :=
  ⟨by norm_num, claim_C6 [⟨60, 9/100, 3/100, none⟩] 120 .grid16 (by norm_num)⟩

/-- Width and containment of the zoom of one axis: starting from an
interval inside 0 to 100, the resulting width is the requested scaled
width capped at 100, and the resulting interval stays inside 0 to 100. -/
theorem zoomAxis_spec (lo hi factor : ℚ) (h0 : 0 ≤ lo) (hlh : lo ≤ hi) (h1 : hi ≤ 100)
    (hf : 0 < factor) :
    (zoomAxis lo hi factor).2 - (zoomAxis lo hi factor).1 = min 100 ((hi - lo) * factor)
    ∧ 0 ≤ (zoomAxis lo hi factor).1
    ∧ (zoomAxis lo hi factor).1 ≤ (zoomAxis lo hi factor).2
    ∧ (zoomAxis lo hi factor).2 ≤ 100 := by
  have hR : 0 ≤ (hi - lo) * factor := mul_nonneg (by linarith) (le_of_lt hf)
  simp only [zoomAxis]
  split_ifs with hn0 hq hq
  all_goals simp only at hq ⊢
  · -- the lower end was below 0 and the shifted upper end exceeds 100
    have hgt : (100 : ℚ) < (hi - lo) * factor := by linarith
    rw [clamp_eq_self 100 0 100 (by norm_num) (by norm_num),
      clamp_eq_lo _ _ _ (by linarith) (by norm_num), min_eq_left (le_of_lt hgt)]
    norm_num
  · -- the lower end was below 0 and the shifted window fits
    have hle : (hi - lo) * factor ≤ 100 := by linarith
    rw [clamp_eq_self 0 0 100 le_rfl (by norm_num),
      clamp_eq_self _ _ _ (by linarith) (by linarith), min_eq_right hle]
    refine ⟨by ring, le_rfl, by linarith, by linarith⟩
  · -- the lower end is inside but the upper end exceeds 100
    rcases le_or_lt ((hi - lo) * factor) 100 with hle | hgt
    · rw [clamp_eq_self 100 0 100 (by norm_num) (by norm_num),
        clamp_eq_self _ _ _ (by linarith) (by linarith), min_eq_right hle]
      refine ⟨by ring, by linarith, by linarith, le_rfl⟩
    · rw [clamp_eq_self 100 0 100 (by norm_num) (by norm_num),
        clamp_eq_lo _ _ _ (by linarith) (by norm_num), min_eq_left (le_of_lt hgt)]
      norm_num
  · -- fully inside: both ends untouched
    have hle : (hi - lo) * factor ≤ 100 := by linarith
    rw [clamp_eq_self _ _ _ (by linarith) (by linarith),
      clamp_eq_self _ _ _ (by linarith) (by linarith), min_eq_right hle]
    refine ⟨by ring, by linarith, by linarith, by linarith⟩

/-- C7 counterexample: zooming out from the full window 0 to 100 by the
factor 5/4 leaves the window at 0 to 100, whose width 100 is not 5/4
times the previous width: the requested factor is not always honored. -/
theorem claim_C7_counterexample :
    handleZoom ⟨0, 100, 0, 100⟩ (5/4) = ⟨0, 100, 0, 100⟩
    ∧ (handleZoom ⟨0, 100, 0, 100⟩ (5/4)).xMax - (handleZoom ⟨0, 100, 0, 100⟩ (5/4)).xMin
        ≠ (5/4) * ((100:ℚ) - 0) := by
  norm_num [handleZoom, zoomAxis, clamp, Viewport.mk.injEq]

/-- C7 amended: for every viewport inside the 0 to 100 square and every
factor above 0, zooming scales both domain ranges about their centers and
then corrects only the position, EXCEPT that the final clamp caps each
resulting width at 100: the new width on each axis is the old width times
the factor, capped at 100 (so the factor is honored exactly whenever the
scaled window fits in the plane), and the result stays inside 0 to 100. -/
theorem claim_C7 (v : Viewport) (factor : ℚ) (hf : 0 < factor)
    (hx0 : 0 ≤ v.xMin) (hx : v.xMin ≤ v.xMax) (hx1 : v.xMax ≤ 100)
    (hy0 : 0 ≤ v.yMin) (hy : v.yMin ≤ v.yMax) (hy1 : v.yMax ≤ 100) :
    (handleZoom v factor).xMax - (handleZoom v factor).xMin
        = min 100 ((v.xMax - v.xMin) * factor)
    ∧ (handleZoom v factor).yMax - (handleZoom v factor).yMin
        = min 100 ((v.yMax - v.yMin) * factor)
    ∧ ((v.xMax - v.xMin) * factor ≤ 100 →
        (handleZoom v factor).xMax - (handleZoom v factor).xMin = (v.xMax - v.xMin) * factor)
    ∧ ((v.yMax - v.yMin) * factor ≤ 100 →
        (handleZoom v factor).yMax - (handleZoom v factor).yMin = (v.yMax - v.yMin) * factor)
    ∧ 0 ≤ (handleZoom v factor).xMin ∧ (handleZoom v factor).xMax ≤ 100
    ∧ 0 ≤ (handleZoom v factor).yMin ∧ (handleZoom v factor).yMax ≤ 100 := by
  obtain ⟨hxw, hxa, _, hxb⟩ := zoomAxis_spec v.xMin v.xMax factor hx0 hx hx1 hf
  obtain ⟨hyw, hya, _, hyb⟩ := zoomAxis_spec v.yMin v.yMax factor hy0 hy hy1 hf
  have ex1 : (handleZoom v factor).xMin = (zoomAxis v.xMin v.xMax factor).1 := rfl
  have ex2 : (handleZoom v factor).xMax = (zoomAxis v.xMin v.xMax factor).2 := rfl
  have ey1 : (handleZoom v factor).yMin = (zoomAxis v.yMin v.yMax factor).1 := rfl
  have ey2 : (handleZoom v factor).yMax = (zoomAxis v.yMin v.yMax factor).2 := rfl
  rw [ex1, ex2, ey1, ey2]
  refine ⟨hxw, hyw, ?_, ?_, hxa, hxb, hya, hyb⟩
  · intro h
    rw [hxw, min_eq_right h]
  · intro h
    rw [hyw, min_eq_right h]

/-- C7 witness: the amended claim instantiated at the window from 40 to 60
on both axes with zoom factor 1/2, which scales the width 20 to 10. -/
theorem claim_C7_witness :
    (0:ℚ) < 1/2 ∧ (0:ℚ) ≤ 40 ∧ (40:ℚ) ≤ 60 ∧ (60:ℚ) ≤ 100
    ∧ (handleZoom ⟨40, 60, 40, 60⟩ (1/2)).xMax - (handleZoom ⟨40, 60, 40, 60⟩ (1/2)).xMin
        = min 100 (((60:ℚ) - 40) * (1/2)) := by
  refine ⟨by norm_num, by norm_num, by norm_num, by norm_num, ?_⟩
  exact (claim_C7 ⟨40, 60, 40, 60⟩ (1/2) (by norm_num) (by norm_num) (by norm_num)
    (by norm_num) (by norm_num) (by norm_num) (by norm_num)).1

/-- C8: panning preserves each domain width exactly and keeps both domains
inside 0 to 100 whenever the starting bounds are inside 0 to 100, because
the new minimum is the old minimum shifted by the data-space delta and
clamped between 0 and 100 minus the range; in particular panning left
from the x domain 0 to 20 by any positive pixel amount (with a positive
pixel width) leaves the x domain at 0 to 20. -/
theorem claim_C8 :
    (∀ (v : Viewport) (dx dy w h : ℚ),
      0 ≤ v.xMin → v.xMin ≤ v.xMax → v.xMax ≤ 100 →
      0 ≤ v.yMin → v.yMin ≤ v.yMax → v.yMax ≤ 100 →
      ((handlePanMove v dx dy w h).xMax - (handlePanMove v dx dy w h).xMin
          = v.xMax - v.xMin
        ∧ (handlePanMove v dx dy w h).yMax - (handlePanMove v dx dy w h).yMin
          = v.yMax - v.yMin
        ∧ 0 ≤ (handlePanMove v dx dy w h).xMin
        ∧ (handlePanMove v dx dy w h).xMax ≤ 100
        ∧ 0 ≤ (handlePanMove v dx dy w h).yMin
        ∧ (handlePanMove v dx dy w h).yMax ≤ 100))
    ∧ (∀ (dx dy w h y0 y1 : ℚ), 0 < dx → 0 < w →
        (handlePanMove ⟨0, 20, y0, y1⟩ dx dy w h).xMin = 0
        ∧ (handlePanMove ⟨0, 20, y0, y1⟩ dx dy w h).xMax = 20) := by
  constructor
  · intro v dx dy w h hx0 hx hx1 hy0 hy hy1
    have ex1 : (handlePanMove v dx dy w h).xMin
        = clamp (v.xMin - dx * ((v.xMax - v.xMin) / w)) 0 (100 - (v.xMax - v.xMin)) := rfl
    have ex2 : (handlePanMove v dx dy w h).xMax
        = clamp (v.xMin - dx * ((v.xMax - v.xMin) / w)) 0 (100 - (v.xMax - v.xMin))
          + (v.xMax - v.xMin) := rfl
    have ey1 : (handlePanMove v dx dy w h).yMin
        = clamp (v.yMin + dy * ((v.yMax - v.yMin) / h)) 0 (100 - (v.yMax - v.yMin)) := rfl
    have ey2 : (handlePanMove v dx dy w h).yMax
        = clamp (v.yMin + dy * ((v.yMax - v.yMin) / h)) 0 (100 - (v.yMax - v.yMin))
          + (v.yMax - v.yMin) := rfl
    rw [ex1, ex2, ey1, ey2]
    have hxr : v.xMax - v.xMin ≤ 100 := by linarith
    have hyr : v.yMax - v.yMin ≤ 100 := by linarith
    have hxc := clamp_le (v.xMin - dx * ((v.xMax - v.xMin) / w)) 0
      (100 - (v.xMax - v.xMin)) (by linarith)
    have hyc := clamp_le (v.yMin + dy * ((v.yMax - v.yMin) / h)) 0
      (100 - (v.yMax - v.yMin)) (by linarith)
    have hxg := clamp_ge (v.xMin - dx * ((v.xMax - v.xMin) / w)) 0 (100 - (v.xMax - v.xMin))
    have hyg := clamp_ge (v.yMin + dy * ((v.yMax - v.yMin) / h)) 0 (100 - (v.yMax - v.yMin))
    refine ⟨by ring, by ring, hxg, by linarith, hyg, by linarith⟩
  · intro dx dy w h y0 y1 hdx hw
    have hd : (0 : ℚ) - dx * ((20 - 0) / w) ≤ 0 := by
      have : 0 < dx * ((20 - 0) / w) := by positivity
      linarith
    have e1 : (handlePanMove ⟨0, 20, y0, y1⟩ dx dy w h).xMin
        = clamp (0 - dx * ((20 - 0) / w)) 0 (100 - (20 - 0)) := rfl
    have e2 : (handlePanMove ⟨0, 20, y0, y1⟩ dx dy w h).xMax
        = clamp (0 - dx * ((20 - 0) / w)) 0 (100 - (20 - 0)) + (20 - 0) := rfl
    rw [e1, e2, clamp_eq_lo _ _ _ hd (by norm_num)]
    norm_num

/-- C8 witness: the pan properties instantiated at the x domain 0 to 20
with y domain 0 to 100, pixel delta 5 in a 100 pixel wide chart (general
part), and the same concrete gesture for the clamp part. -/
theorem claim_C8_witness :
    ((handlePanMove ⟨0, 20, 0, 100⟩ 5 0 100 100).xMax
        - (handlePanMove ⟨0, 20, 0, 100⟩ 5 0 100 100).xMin = (20:ℚ) - 0)
    ∧ (handlePanMove ⟨0, 20, 0, 100⟩ 5 0 100 100).xMin = 0
    ∧ (handlePanMove ⟨0, 20, 0, 100⟩ 5 0 100 100).xMax = 20 := by
  have h1 := (claim_C8.1 ⟨0, 20, 0, 100⟩ 5 0 100 100 (by norm_num) (by norm_num)
    (by norm_num) (by norm_num) (by norm_num) (by norm_num)).1
  have h2 := claim_C8.2 5 0 100 100 0 100 (by norm_num) (by norm_num)
  exact ⟨h1, h2.1, h2.2⟩

/-- Runs of the drag machine that start in a dragging state, perform at
least one move and then release emit exactly the value computed from the
last move. -/
theorem dragRun_moves_up :
    ∀ (ms : List MoveGeom) (t : Option MapPosition) (d : Bool) (h : ms ≠ []),
      (dragRun ⟨true, t, d⟩ (ms.map DragEvent.move ++ [DragEvent.up])).2
        = [moveValue (ms.getLast h)] := by
  intro ms
  induction ms with
  | nil =>
    intro t d h
    exact absurd rfl h
  | cons m rest ih =>
    intro t d h
    cases rest with
    | nil =>
      simp [dragRun, dragStep]
    | cons m₂ r₂ =>
      have hne : m₂ :: r₂ ≠ [] := by simp
      rw [List.getLast_cons hne]
      simp only [List.map_cons, List.cons_append, dragRun, dragStep]
      simpa using ih (some (moveValue m)) true hne

/-- C9: in the drag machine a pointer-down on the draggable point followed
directly by a pointer-up emits nothing (a selection click), while the same
bracket with at least one intervening move always emits exactly the live
position computed from the last move. -/
theorem claim_C9 :
    (∀ p : MapPosition,
      (dragRun initialDragState [DragEvent.down p true, DragEvent.up]).2 = [])
    ∧ (∀ (p : MapPosition) (ms : List MoveGeom) (h : ms ≠ []),
        (dragRun initialDragState
            (DragEvent.down p true :: (ms.map DragEvent.move ++ [DragEvent.up]))).2
          = [moveValue (ms.getLast h)]) := by
  constructor
  · intro p
    simp [dragRun, dragStep, initialDragState]
  · intro p ms h
    have hdown : dragStep initialDragState (DragEvent.down p true)
        = (⟨true, some p, false⟩, none) := by
      simp [dragStep, initialDragState]
    simp only [dragRun, hdown]
    simpa using dragRun_moves_up ms (some p) false h

/-- C9 witness: the click bracket and a one-move drag bracket at the down
position x 3, y 250 and a concrete move geometry. -/
theorem claim_C9_witness :
    (dragRun initialDragState [DragEvent.down ⟨3, 250⟩ true, DragEvent.up]).2 = []
    ∧ (dragRun initialDragState
        (DragEvent.down ⟨3, 250⟩ true
          :: (([⟨50, 50, 0, 0, 140, 140, ⟨0, 100, 0, 100⟩⟩] : List MoveGeom).map DragEvent.move
            ++ [DragEvent.up]))).2
      = [moveValue (([⟨50, 50, 0, 0, 140, 140, ⟨0, 100, 0, 100⟩⟩] : List MoveGeom).getLast
          (by simp))] :=
  ⟨claim_C9.1 ⟨3, 250⟩,
    claim_C9.2 ⟨3, 250⟩ [⟨50, 50, 0, 0, 140, 140, ⟨0, 100, 0, 100⟩⟩] (by simp)⟩

/-- Every position the move handler stores is clamped into the square. -/
theorem moveValue_clamped (g : MoveGeom) :
    0 ≤ (moveValue g).x ∧ (moveValue g).x ≤ 100
    ∧ 0 ≤ (moveValue g).y ∧ (moveValue g).y ≤ 100 :=
  ⟨clamp_ge _ _ _, clamp_le _ _ _ (by norm_num), clamp_ge _ _ _, clamp_le _ _ _ (by norm_num)⟩

/-- Invariant run lemma: if the state can only emit clamped positions
(whenever the did-drag flag is set the stored transient position lies in
the square), every position emitted along any event sequence lies in the
square from 0 to 100. -/
theorem dragRun_emits_clamped :
    ∀ (es : List DragEvent) (s : DragState),
      (s.didDrag = true → ∀ q : MapPosition, s.transient = some q →
        0 ≤ q.x ∧ q.x ≤ 100 ∧ 0 ≤ q.y ∧ q.y ≤ 100) →
      ∀ p ∈ (dragRun s es).2, 0 ≤ p.x ∧ p.x ≤ 100 ∧ 0 ≤ p.y ∧ p.y ≤ 100 := by
  intro es
  induction es with
  | nil =>
    intro s hinv p hp
    simp [dragRun] at hp
  | cons e rest ih =>
    intro s hinv p hp
    rcases s with ⟨dr, tr, dd⟩
    cases e with
    | down pos draggable =>
      cases draggable with
      | false =>
        simp only [dragRun, dragStep, Bool.false_eq_true, if_false, Option.toList_none,
          List.nil_append] at hp
        exact ih ⟨dr, tr, dd⟩ hinv p hp
      | true =>
        simp only [dragRun, dragStep, if_true, Option.toList_none, List.nil_append] at hp
        exact ih ⟨true, some pos, false⟩ (by simp) p hp
    | move g =>
      cases dr with
      | false =>
        simp only [dragRun, dragStep, Bool.false_eq_true, if_false, Option.toList_none,
          List.nil_append] at hp
        exact ih ⟨false, tr, dd⟩ hinv p hp
      | true =>
        simp only [dragRun, dragStep, if_true, Option.toList_none, List.nil_append] at hp
        refine ih ⟨true, some (moveValue g), true⟩ ?_ p hp
        intro _ q hq
        injection hq with hq
        exact hq ▸ moveValue_clamped g
    | up =>
      cases tr with
      | none =>
        simp only [dragRun, dragStep, Option.toList_none, List.nil_append] at hp
        refine ih ⟨false, none, dd⟩ ?_ p hp
        intro _ q hq
        cases hq
      | some q =>
        by_cases hdd : (dr && dd) = true
        · simp only [dragRun, dragStep, hdd, if_true, Option.toList_some,
            List.singleton_append] at hp
          rcases List.mem_cons.mp hp with rfl | hp₂
          · exact hinv (Bool.and_elim_right hdd) p rfl
          · refine ih ⟨false, some q, dd⟩ ?_ p hp₂
            intro hd r hr
            injection hr with hr
            exact hr ▸ hinv (by simpa using And.intro (Bool.and_elim_left hdd) hd |>.2) q rfl
        · simp only [dragRun, dragStep, hdd, if_false, Option.toList_none,
            List.nil_append] at hp
          refine ih ⟨false, some q, dd⟩ ?_ p hp
          intro hd r hr
          injection hr with hr
          exact hr ▸ hinv hd q rfl

/-- C10: every position actually emitted to onUserMelodyMove along any
event sequence from the initial state lies inside the square from 0 to
100 on both axes, even when a down event carries a stored position
outside the square: the down position is never emitted without a move,
and every moved position is clamped before storage. -/
theorem claim_C10 (es : List DragEvent) (p : MapPosition)
    (hp : p ∈ (dragRun initialDragState es).2) :
    0 ≤ p.x ∧ p.x ≤ 100 ∧ 0 ≤ p.y ∧ p.y ≤ 100 :=
  dragRun_emits_clamped es initialDragState (by simp [initialDragState]) p hp

/-- C10 witness: a drag whose down event carries the stored position
x 200, y -5 outside the square still emits only the clamped moved
position, here x 30, y 70. -/
theorem claim_C10_witness :
    ((⟨30, 70⟩ : MapPosition) ∈ (dragRun initialDragState
        [DragEvent.down ⟨200, -5⟩ true,
          DragEvent.move ⟨50, 50, 0, 0, 140, 140, ⟨0, 100, 0, 100⟩⟩,
          DragEvent.up]).2)
    ∧ (0 ≤ (⟨30, 70⟩ : MapPosition).x ∧ (⟨30, 70⟩ : MapPosition).x ≤ 100
        ∧ 0 ≤ (⟨30, 70⟩ : MapPosition).y ∧ (⟨30, 70⟩ : MapPosition).y ≤ 100) := by
  have hmem : (⟨30, 70⟩ : MapPosition) ∈ (dragRun initialDragState
      [DragEvent.down ⟨200, -5⟩ true,
        DragEvent.move ⟨50, 50, 0, 0, 140, 140, ⟨0, 100, 0, 100⟩⟩,
        DragEvent.up]).2 := by
    norm_num [dragRun, dragStep, initialDragState, moveValue, clamp, MapPosition.mk.injEq]
  exact ⟨hmem, claim_C10 _ _ hmem⟩

/-- Mapped image of one member of a list is a sublist of the flat map. -/
theorem sublist_flatMap_of_mem (f : List MidiNote → List MidiNote)
    {l : List (List MidiNote)} {a : List MidiNote} (h : a ∈ l) :
    (f a).Sublist (l.flatMap f) := by
  induction l with
  | nil => simp at h
  | cons b t ih =>
    rcases List.mem_cons.mp h with rfl | h1
    · simp only [List.flatMap_cons]
      exact List.sublist_append_left _ _
    · simp only [List.flatMap_cons]
      exact (ih h1).trans (List.sublist_append_right _ _)

/-- C3: for every simultaneity group of the sorted input, the note the
classifier selects is a member of the group of maximal pitch whose
predecessors in the group all have strictly smaller pitch (so pitch ties
go to the first occurrence, and an all-equal-pitch group selects its
first note), this note is in the melody output, and the rest of the group
is a sublist of the harmony output. -/
theorem claim_C3 (notes : List MidiNote) (g : List MidiNote)
    (hg : g ∈ simGroups (notes.mergeSort startLE)) (hlen : 1 < g.length) :
    (∃ l₁ l₂, g = l₁ ++ topFold g :: l₂
      ∧ (∀ x ∈ l₁, x.pitch < (topFold g).pitch)
      ∧ (∀ x ∈ l₂, x.pitch ≤ (topFold g).pitch))
    ∧ topFold g ∈ (classifyNotes notes).1
    ∧ (g.erase (topFold g)).Sublist (classifyNotes notes).2 := by
  have hne : g ≠ [] := simGroups_ne_nil _ g hg
  refine ⟨topFold_argmax g hne, ?_, ?_⟩
  · unfold classifyNotes
    simp only
    exact List.mem_map_of_mem topFold hg
  · unfold classifyNotes
    simp only
    exact sublist_flatMap_of_mem (fun h => h.erase (topFold h)) hg

/-- C3 witness: the three-note chord example: pitches 60, 64 and 67
starting at 0, 1/100 and 3/200 seconds form one group; pitch 67 is the
melody note and pitches 60 and 64 are the harmony. -/
theorem claim_C3_witness :
    ([⟨60, 0, 1, none⟩, ⟨64, 1/100, 1, none⟩, ⟨67, 3/200, 1, none⟩] : List MidiNote)
        ∈ simGroups (([⟨60, 0, 1, none⟩, ⟨64, 1/100, 1, none⟩, ⟨67, 3/200, 1, none⟩] :
            List MidiNote).mergeSort startLE)
    ∧ 1 < ([⟨60, 0, 1, none⟩, ⟨64, 1/100, 1, none⟩, ⟨67, 3/200, 1, none⟩] :
        List MidiNote).length
    ∧ ((∃ l₁ l₂, ([⟨60, 0, 1, none⟩, ⟨64, 1/100, 1, none⟩, ⟨67, 3/200, 1, none⟩] :
            List MidiNote)
          = l₁ ++ topFold [⟨60, 0, 1, none⟩, ⟨64, 1/100, 1, none⟩, ⟨67, 3/200, 1, none⟩] :: l₂
        ∧ (∀ x ∈ l₁, x.pitch
            < (topFold [⟨60, 0, 1, none⟩, ⟨64, 1/100, 1, none⟩, ⟨67, 3/200, 1, none⟩]).pitch)
        ∧ (∀ x ∈ l₂, x.pitch
            ≤ (topFold [⟨60, 0, 1, none⟩, ⟨64, 1/100, 1, none⟩, ⟨67, 3/200, 1, none⟩]).pitch))
      ∧ topFold [⟨60, 0, 1, none⟩, ⟨64, 1/100, 1, none⟩, ⟨67, 3/200, 1, none⟩]
          ∈ (classifyNotes [⟨60, 0, 1, none⟩, ⟨64, 1/100, 1, none⟩, ⟨67, 3/200, 1, none⟩]).1
      ∧ (([⟨60, 0, 1, none⟩, ⟨64, 1/100, 1, none⟩, ⟨67, 3/200, 1, none⟩] :
            List MidiNote).erase
            (topFold [⟨60, 0, 1, none⟩, ⟨64, 1/100, 1, none⟩, ⟨67, 3/200, 1, none⟩])).Sublist
          (classifyNotes [⟨60, 0, 1, none⟩, ⟨64, 1/100, 1, none⟩, ⟨67, 3/200, 1, none⟩]).2)
    ∧ classifyNotes [⟨60, 0, 1, none⟩, ⟨64, 1/100, 1, none⟩, ⟨67, 3/200, 1, none⟩]
        = ([⟨67, 3/200, 1, none⟩], [⟨60, 0, 1, none⟩, ⟨64, 1/100, 1, none⟩]) := by
  have hms : ([⟨60, 0, 1, none⟩, ⟨64, 1/100, 1, none⟩, ⟨67, 3/200, 1, none⟩] :
      List MidiNote).mergeSort startLE
      = [⟨60, 0, 1, none⟩, ⟨64, 1/100, 1, none⟩, ⟨67, 3/200, 1, none⟩] := by
    apply List.mergeSort_of_sorted
    norm_num [startLE, List.pairwise_cons]
  have hsg : simGroups ([⟨60, 0, 1, none⟩, ⟨64, 1/100, 1, none⟩, ⟨67, 3/200, 1, none⟩] :
      List MidiNote)
      = [[⟨60, 0, 1, none⟩, ⟨64, 1/100, 1, none⟩, ⟨67, 3/200, 1, none⟩]] := by
    norm_num [simGroups, simGroupsAux, takeGroup, timeThreshold]
  have hmem : ([⟨60, 0, 1, none⟩, ⟨64, 1/100, 1, none⟩, ⟨67, 3/200, 1, none⟩] : List MidiNote)
      ∈ simGroups (([⟨60, 0, 1, none⟩, ⟨64, 1/100, 1, none⟩, ⟨67, 3/200, 1, none⟩] :
          List MidiNote).mergeSort startLE) := by
    rw [hms, hsg]
    simp
  refine ⟨hmem, by norm_num, claim_C3 _ _ hmem (by norm_num), ?_⟩
  norm_num [classifyNotes, hms, simGroups, simGroupsAux, takeGroup, timeThreshold, topFold,
    pickHigher, List.erase_cons, MidiNote.mk.injEq]

theorem topFold_singleton (n : MidiNote) : topFold [n] = n := by
  simp [topFold, pickHigher]

/-- Notes whose consecutive start times are at least one threshold apart
split into singleton groups. -/
theorem simGroups_spaced :
    ∀ (notes : List MidiNote),
      List.Chain' (fun a b => a.startTime + timeThreshold ≤ b.startTime) notes →
      simGroups notes = notes.map fun n => [n] := by
  intro notes
  induction notes with
  | nil => intro _; rfl
  | cons n ns ih =>
    intro hchain
    rw [simGroups_cons]
    cases ns with
    | nil => rfl
    | cons m ms =>
      obtain ⟨hnm, htail⟩ := List.chain'_cons.mp hchain
      have htk : takeGroup n (m :: ms) = ([], m :: ms) := by
        have : ¬ (m.startTime - n.startTime < timeThreshold) := by linarith
        simp [takeGroup, this]
      rw [htk]
      rw [ih htail]
      simp

/-- A note list whose consecutive start times are at least one threshold
apart is classified as pure melody in the given order. -/
theorem classify_spaced (notes : List MidiNote)
    (hchain : List.Chain' (fun a b => a.startTime + timeThreshold ≤ b.startTime) notes) :
    classifyNotes notes = (notes, []) := by
  have hth : (0 : ℚ) < timeThreshold := by norm_num [timeThreshold]
  have htrans : ∀ a b c : MidiNote,
      a.startTime + timeThreshold ≤ b.startTime →
      b.startTime + timeThreshold ≤ c.startTime →
      a.startTime + timeThreshold ≤ c.startTime := by
    intro a b c hab hbc
    linarith
  have hpw : List.Pairwise (fun a b : MidiNote =>
      a.startTime + timeThreshold ≤ b.startTime) notes := by
    haveI : IsTrans MidiNote (fun a b => a.startTime + timeThreshold ≤ b.startTime) :=
      ⟨fun a b c => htrans a b c⟩
    exact List.chain'_iff_pairwise.mp hchain
  have hms : notes.mergeSort startLE = notes := by
    apply List.mergeSort_of_sorted
    refine hpw.imp ?_
    intro a b hab
    simp only [startLE, decide_eq_true_eq]
    linarith
  unfold classifyNotes
  simp only [hms, simGroups_spaced notes hchain, Prod.mk.injEq]
  constructor
  · rw [List.map_map]
    have : (topFold ∘ fun n : MidiNote => [n]) = id := by
      funext n
      simp [topFold_singleton]
    rw [this, List.map_id]
  · rw [List.flatMap_map]
    simp [topFold_singleton]

/-- C4 counterexample: a chain of three notes each 15 ms apart does NOT
form one simultaneity group: the third note lies 30 ms after the first,
so the grouping against the FIRST note of the group closes the group
after two members and a group can never span 20 ms or more. -/
theorem claim_C4_counterexample :
    simGroups [⟨60, 0, 1, none⟩, ⟨64, 3/200, 1, none⟩, ⟨67, 3/100, 1, none⟩]
      = [[⟨60, 0, 1, none⟩, ⟨64, 3/200, 1, none⟩], [⟨67, 3/100, 1, none⟩]]
    ∧ simGroups [⟨60, 0, 1, none⟩, ⟨64, 3/200, 1, none⟩, ⟨67, 3/100, 1, none⟩]
      ≠ [[⟨60, 0, 1, none⟩, ⟨64, 3/200, 1, none⟩, ⟨67, 3/100, 1, none⟩]] := by
  constructor
  · norm_num [simGroups, simGroupsAux, takeGroup, timeThreshold]
  · norm_num [simGroups, simGroupsAux, takeGroup, timeThreshold, MidiNote.mk.injEq]

/-- C4 amended: classifyNotes forms each simultaneity group by comparing
every candidate note against the FIRST note of the group (threshold 20
milliseconds, a takeWhile against the first member), so a note list whose
consecutive notes are at least 20 ms apart yields an empty harmony and a
melody equal to the input in order; consequently every member of a group
starts less than 20 ms after the first member (a chain of notes each
15 ms apart therefore does NOT form one group spanning more than 20 ms:
its third note opens a new group, as the counterexample shows). -/
theorem claim_C4 :
    (∀ (c : MidiNote) (l : List MidiNote),
      takeGroup c l
        = (l.takeWhile fun n => decide (n.startTime - c.startTime < timeThreshold),
           l.dropWhile fun n => decide (n.startTime - c.startTime < timeThreshold)))
    ∧ (∀ notes : List MidiNote,
        List.Chain' (fun a b => a.startTime + timeThreshold ≤ b.startTime) notes →
        classifyNotes notes = (notes, []))
    ∧ (∀ (l : List MidiNote), ∀ g ∈ simGroups l, ∀ n ∈ g,
        n.startTime - (g.headD default).startTime < timeThreshold)
    ∧ simGroups [⟨60, 0, 1, none⟩, ⟨64, 3/200, 1, none⟩, ⟨67, 3/100, 1, none⟩]
      = [[⟨60, 0, 1, none⟩, ⟨64, 3/200, 1, none⟩], [⟨67, 3/100, 1, none⟩]] :=
  ⟨takeGroup_eq, classify_spaced, simGroups_span,
    by norm_num [simGroups, simGroupsAux, takeGroup, timeThreshold]⟩

/-- C4 witness: the components of the amended claim applied to concrete
inputs: the takeWhile description of takeGroup at a 30 ms gap, the
spaced-note component at two notes 100 ms apart (classified unchanged as
pure melody), and the span bound at the first group of the 15 ms chain,
whose second member starts 15 ms after the first, below the threshold. -/
theorem claim_C4_witness :
    (List.Chain' (fun a b : MidiNote => a.startTime + timeThreshold ≤ b.startTime)
        [⟨60, 0, 1, none⟩, ⟨64, 1/10, 1, none⟩])
    ∧ classifyNotes [⟨60, 0, 1, none⟩, ⟨64, 1/10, 1, none⟩]
        = ([⟨60, 0, 1, none⟩, ⟨64, 1/10, 1, none⟩], [])
    ∧ takeGroup ⟨60, 0, 1, none⟩ [⟨64, 3/100, 1, none⟩]
        = (([⟨64, 3/100, 1, none⟩] : List MidiNote).takeWhile
            (fun n => decide (n.startTime - (⟨60, 0, 1, none⟩ : MidiNote).startTime
              < timeThreshold)),
          ([⟨64, 3/100, 1, none⟩] : List MidiNote).dropWhile
            (fun n => decide (n.startTime - (⟨60, 0, 1, none⟩ : MidiNote).startTime
              < timeThreshold)))
    ∧ ([⟨60, 0, 1, none⟩, ⟨64, 3/200, 1, none⟩] : List MidiNote)
        ∈ simGroups [⟨60, 0, 1, none⟩, ⟨64, 3/200, 1, none⟩, ⟨67, 3/100, 1, none⟩]
    ∧ (⟨64, 3/200, 1, none⟩ : MidiNote).startTime
        - (([⟨60, 0, 1, none⟩, ⟨64, 3/200, 1, none⟩] : List MidiNote).headD
            default).startTime < timeThreshold := by
  have hc : List.Chain' (fun a b : MidiNote => a.startTime + timeThreshold ≤ b.startTime)
      [⟨60, 0, 1, none⟩, ⟨64, 1/10, 1, none⟩] := by
    norm_num [List.chain'_cons, timeThreshold]
  have hg : ([⟨60, 0, 1, none⟩, ⟨64, 3/200, 1, none⟩] : List MidiNote)
      ∈ simGroups [⟨60, 0, 1, none⟩, ⟨64, 3/200, 1, none⟩, ⟨67, 3/100, 1, none⟩] := by
    have he : simGroups [⟨60, 0, 1, none⟩, ⟨64, 3/200, 1, none⟩, ⟨67, 3/100, 1, none⟩]
        = [[⟨60, 0, 1, none⟩, ⟨64, 3/200, 1, none⟩], [⟨67, 3/100, 1, none⟩]] := by
      norm_num [simGroups, simGroupsAux, takeGroup, timeThreshold]
    rw [he]
    simp
  have hn : (⟨64, 3/200, 1, none⟩ : MidiNote)
      ∈ ([⟨60, 0, 1, none⟩, ⟨64, 3/200, 1, none⟩] : List MidiNote) := by simp
  exact ⟨hc, claim_C4.2.1 _ hc, claim_C4.1 _ _, hg, claim_C4.2.2.1 _ _ hg _ hn⟩
